import Mathlib

/-!
Verification of the Blob serializer/deserializer of src/lib/Blob.hpp.

The file shallowly embeds the Blob engine: the byte buffer with its read
cursor, the variable-width counter codec, the generic append/restore
type dispatch over a universe of serializable values, and the pointer
dictionary and deferred pointer-resolution machinery (mind_/remind,
mpu_/vp_/mpl_).  Machine bytes are Nat (each < 256 in real runs), machine
integers are Nat with explicit truncation where the code casts, and
addresses are Nat with 0 playing the role of nullptr.  Exceptions become
an explicit error component carried next to the state, matching the fact
that a thrown C++ exception leaves the Blob object alive with the state
it had at the throw point.
-/

namespace JslBlob

/-- Little-endian byte encoding of a machine integer of width w bytes.
Models the native in-memory representation that append_raw copies
byte-by-byte; a cast to an unsigned type of width w truncates, which the
mod-256 digits reproduce. -/
def natToBytes : Nat → Nat → List Nat
  | 0, _ => []
  | w + 1, n => (n % 256) :: natToBytes w (n / 256)

/-- Reassembling a machine integer from its little-endian bytes, as the
reinterpreting load in the fundamental restore does. -/
def bytesToNat : List Nat → Nat
  | [] => 0
  | b :: bs => b + 256 * bytesToNat bs

theorem length_natToBytes (w n : Nat) : (natToBytes w n).length = w := by
  induction w generalizing n with
  | zero => rfl
  | succ w ih => simp [natToBytes, ih]

theorem bytesToNat_natToBytes (w n : Nat) : bytesToNat (natToBytes w n) = n % 256 ^ w := by
  induction w generalizing n with
  | zero => simp [natToBytes, bytesToNat, Nat.mod_one]
  | succ w ih =>
      simp only [natToBytes, bytesToNat, ih]
      rw [pow_succ, mul_comm (256 ^ w) 256, Nat.mod_mul]

/-- The five failure conditions of the engine.  OutOfData stands for the
std::out_of_range that vector::at raises on a read past the end of the
buffer; the other four are the members of Blob::ThrowReason. -/
inductive BlobErr where
  | OutOfData
  | UnaccountedPointer
  | DuplicatePointerLocation
  | MissingPointers
  | DataCorruption
deriving DecidableEq

/-- Abstract machine address; 0 plays the role of nullptr. -/
abbrev Addr := Nat

/-- The Blob state: the byte vector blob_, the read cursor offset_, the
address-to-uid dictionary mpu_, the uid-to-address vector vp_, and the
pending pointer-location table mpl_ (uid to set of slot addresses, kept
sorted by uid as std::map iterates). -/
structure Blob where
  blob_ : List Nat := []
  offset_ : Nat := 0
  mpu_ : List (Addr × Nat) := []
  vp_ : List Addr := []
  mpl_ : List (Nat × List Addr) := []
deriving DecidableEq

/-- A default-constructed Blob. -/
def Blob.init : Blob := {}

/-- Blob::reset - clears vp_, mpu_, mpl_ and the cursor, keeps blob_. -/
def Blob.reset (b : Blob) : Blob :=
  { b with vp_ := [], mpu_ := [], mpl_ := [], offset_ := 0 }

/-- Blob::clear - empties blob_ and then resets. -/
def Blob.clear (b : Blob) : Blob :=
  Blob.reset { b with blob_ := [] }

/-- Blob::size - the length of the serialized byte sequence. -/
def Blob.size (b : Blob) : Nat := b.blob_.length

/-- Blob::empty - whether the byte sequence is empty. -/
def Blob.empty (b : Blob) : Bool := b.size == 0

/-- Result of a restore-side operation: the produced value together with
the Blob state on return, or the thrown error together with the Blob
state at the throw point. -/
inductive RRes (α : Type) where
  | ok : α → Blob → RRes α
  | err : BlobErr → Blob → RRes α
deriving DecidableEq

/-- Blob::counterSize_ - width class of a counter: scans the bounds
2^32, 2^16, 2^8 from above and returns the index of the first bound the
counter reaches plus one, otherwise 0. -/
def counterSize_ (cntr : Nat) : Nat :=
  if 2 ^ 32 ≤ cntr then 3
  else if 2 ^ 16 ≤ cntr then 2
  else if 2 ^ 8 ≤ cntr then 1
  else 0

/-- Blob::appendCntr_ - the bytes a counter append pushes: the class tag
byte, then the counter cast to the 1/2/4/8-byte unsigned type of that
class; any other class value would throw DataCorruption. -/
def appendCntr_ (s : Nat) : Except BlobErr (List Nat) :=
  match counterSize_ s with
  | 0 => .ok (0 :: natToBytes 1 s)
  | 1 => .ok (1 :: natToBytes 2 s)
  | 2 => .ok (2 :: natToBytes 4 s)
  | 3 => .ok (3 :: natToBytes 8 s)
  | _ => .error .DataCorruption

/-- The byte sequence of a serialized counter (tag byte, then 2^tag
little-endian bytes); appendCntr_ always succeeds with exactly these
bytes. -/
def serCntr (s : Nat) : List Nat :=
  counterSize_ s :: natToBytes (2 ^ counterSize_ s) s

theorem appendCntr_eq_serCntr (s : Nat) : appendCntr_ s = .ok (serCntr s) := by
  unfold appendCntr_ serCntr counterSize_
  split_ifs <;> rfl

/-- Reading w bytes of raw memory starting at index off of the byte
vector; bytes past the end of the vector are whatever memory happens to
hold (undefined behavior in the source), modelled as 0. -/
def readBytes (l : List Nat) : Nat → Nat → List Nat
  | _, 0 => []
  | off, w + 1 => l.getD off 0 :: readBytes l (off + 1) w

/-- The fundamental (and enum) restore: r = *(T*)&blob_.at(offset_);
offset_ += sizeof(T).  Note at() bounds-checks only the first byte: when
offset_ < len but offset_ + w > len the load reads past the end of the
vector (undefined behavior, the stray bytes modelled as 0) and still
succeeds.  Only offset_ ≥ len raises std::out_of_range (OutOfData). -/
def restoreFund (w : Nat) (b : Blob) : RRes (List Nat) :=
  if b.offset_ < b.blob_.length then
    .ok (readBytes b.blob_ b.offset_ w) { b with offset_ := b.offset_ + w }
  else
    .err .OutOfData b

/-- Blob::restore_raw - copies s bytes one at a time, each through
blob_.at(offset_++), so it raises std::out_of_range (OutOfData) at the
first byte past the end of the vector: it fails whenever
offset_ + s > len. -/
def restore_raw (s : Nat) (b : Blob) : RRes (List Nat) :=
  match s with
  | 0 => .ok [] b
  | n + 1 =>
    if h : b.offset_ < b.blob_.length then
      match restore_raw n { b with offset_ := b.offset_ + 1 } with
      | .ok bs b2 => .ok (b.blob_.get ⟨b.offset_, h⟩ :: bs) b2
      | .err e b2 => .err e b2
    else
      .err .OutOfData b

/-- Blob::restoreCntr_ - restores the tag byte, then dispatches on it to
restore a 1/2/4/8-byte unsigned counter; a tag outside {0,1,2,3} throws
DataCorruption. -/
def restoreCntr_ (b : Blob) : RRes Nat :=
  match restoreFund 1 b with
  | .err e b1 => .err e b1
  | .ok cs b1 =>
    match bytesToNat cs with
    | 0 =>
      match restoreFund 1 b1 with
      | .ok c b2 => .ok (bytesToNat c) b2
      | .err e b2 => .err e b2
    | 1 =>
      match restoreFund 2 b1 with
      | .ok c b2 => .ok (bytesToNat c) b2
      | .err e b2 => .err e b2
    | 2 =>
      match restoreFund 4 b1 with
      | .ok c b2 => .ok (bytesToNat c) b2
      | .err e b2 => .err e b2
    | 3 =>
      match restoreFund 8 b1 with
      | .ok c b2 => .ok (bytesToNat c) b2
      | .err e b2 => .err e b2
    | _ => .err .DataCorruption b1

/-- The universe of serializable values, one constructor per structural
category of the dispatch engine: fundamentals and enums (the raw bytes
of the in-memory bit pattern), SERDES composites (the declared fields in
declaration order), fixed C arrays, linear sequence containers, strings,
and associative maps (the pair sequence in iteration order). -/
inductive Value where
  | fund (width : Nat) (bytes : List Nat)
  | comp (fields : List Value)
  | arr (elems : List Value)
  | seqc (elems : List Value)
  | str (chars : List Nat)
  | mapc (pairs : List (Value × Value))

/-- Static types directing the restore dispatch: each restore overload is
selected at compile time by the destination type. -/
inductive Ty where
  | fund (width : Nat)
  | comp (fields : List Ty)
  | arr (n : Nat) (elem : Ty)
  | seqc (elem : Ty)
  | str
  | mapc (key val : Ty)

mutual

/-- Structural equality of values; plays the role of the key comparison
of the C++ containers. -/
def valueBeq : Value → Value → Bool
  | .fund w1 b1, .fund w2 b2 => w1 == w2 && b1 == b2
  | .comp f1, .comp f2 => valueListBeq f1 f2
  | .arr e1, .arr e2 => valueListBeq e1 e2
  | .seqc e1, .seqc e2 => valueListBeq e1 e2
  | .str c1, .str c2 => c1 == c2
  | .mapc p1, .mapc p2 => valuePairsBeq p1 p2
  | _, _ => false

/-- Pointwise equality of value lists. -/
def valueListBeq : List Value → List Value → Bool
  | [], [] => true
  | v :: vs, w :: ws => valueBeq v w && valueListBeq vs ws
  | _, _ => false

/-- Pointwise equality of pair lists. -/
def valuePairsBeq : List (Value × Value) → List (Value × Value) → Bool
  | [], [] => true
  | (k1, v1) :: ps, (k2, v2) :: qs =>
      valueBeq k1 k2 && valueBeq v1 v2 && valuePairsBeq ps qs
  | _, _ => false

end

instance : BEq Value := ⟨valueBeq⟩

mutual

theorem valueBeq_iff : ∀ (v w : Value), valueBeq v w = true ↔ v = w
  | .fund w1 b1, w => by
      cases w <;> simp [valueBeq, Bool.and_eq_true, beq_iff_eq]
  | .comp f1, w => by
      cases w <;> simp [valueBeq, valueListBeq_iff f1]
  | .arr e1, w => by
      cases w <;> simp [valueBeq, valueListBeq_iff e1]
  | .seqc e1, w => by
      cases w <;> simp [valueBeq, valueListBeq_iff e1]
  | .str c1, w => by
      cases w <;> simp [valueBeq, beq_iff_eq]
  | .mapc p1, w => by
      cases w <;> simp [valueBeq, valuePairsBeq_iff p1]

theorem valueListBeq_iff : ∀ (l m : List Value), valueListBeq l m = true ↔ l = m
  | [], m => by cases m <;> simp [valueListBeq]
  | v :: vs, m => by
      cases m with
      | nil => simp [valueListBeq]
      | cons w ws =>
          simp [valueListBeq, Bool.and_eq_true, valueBeq_iff v w, valueListBeq_iff vs ws]

theorem valuePairsBeq_iff : ∀ (l m : List (Value × Value)), valuePairsBeq l m = true ↔ l = m
  | [], m => by cases m <;> simp [valuePairsBeq]
  | (k1, v1) :: ps, m => by
      cases m with
      | nil => simp [valuePairsBeq]
      | cons q qs =>
          obtain ⟨k2, v2⟩ := q
          simp [valuePairsBeq, Bool.and_eq_true, valueBeq_iff k1 k2, valueBeq_iff v1 v2,
            valuePairsBeq_iff ps qs, and_assoc]

end

instance : DecidableEq Value := fun v w =>
  decidable_of_iff (valueBeq v w = true) (valueBeq_iff v w)

mutual

/-- Bytes pushed by Blob::append for a value: fundamentals copy their
raw bytes; composites append their fields in order; fixed arrays append
elements with no count; sequence containers, strings and maps append a
counter then their payload. -/
def serVal : Value → List Nat
  | .fund _ bs => bs
  | .comp fs => serList fs
  | .arr es => serList es
  | .seqc es => serCntr es.length ++ serList es
  | .str cs => serCntr cs.length ++ cs
  | .mapc ps => serCntr ps.length ++ serPairs ps

/-- Elements appended back to back. -/
def serList : List Value → List Nat
  | [] => []
  | v :: vs => serVal v ++ serList vs

/-- Interleaved key, value pairs appended back to back. -/
def serPairs : List (Value × Value) → List Nat
  | [] => []
  | (k, v) :: ps => serVal k ++ serVal v ++ serPairs ps

end

/-- Blob::append of a value only pushes bytes at the end of blob_
(append_raw is a loop of push_back); cursor and pointer tables are
untouched for the non-pointer categories. -/
def Blob.appendVal (b : Blob) (v : Value) : Blob :=
  { b with blob_ := b.blob_ ++ serVal v }

/-- Restoring a single char of a string: a 1-byte fundamental restore. -/
def restoreChar (b : Blob) : RRes Nat :=
  match restoreFund 1 b with
  | .ok bs b1 => .ok (bytesToNat bs) b1
  | .err e b1 => .err e b1

/-- Restoring n successive elements with the element restore f, as the
resize-then-restore-each loops of the container restores do. -/
def iterRestore {α : Type} (f : Blob → RRes α) : Nat → Blob → RRes (List α)
  | 0, b => .ok [] b
  | n + 1, b =>
    match f b with
    | .err e b1 => .err e b1
    | .ok v b1 =>
      match iterRestore f n b1 with
      | .err e b2 => .err e b2
      | .ok vs b2 => .ok (v :: vs) b2

/-- std::map::emplace - inserts the pair only when the key is not
already present; an existing key is left untouched. -/
def emplace (ps : List (Value × Value)) (k v : Value) : List (Value × Value) :=
  if ps.any (fun p => p.1 == k) then ps else ps ++ [(k, v)]

/-- The map restore loop: l times restore a default-initialized key and
value, then emplace the pair into the container. -/
def iterRestorePair (fk fv : Blob → RRes Value) :
    Nat → List (Value × Value) → Blob → RRes (List (Value × Value))
  | 0, acc, b => .ok acc b
  | n + 1, acc, b =>
    match fk b with
    | .err e b1 => .err e b1
    | .ok k b1 =>
      match fv b1 with
      | .err e b2 => .err e b2
      | .ok v b2 => iterRestorePair fk fv n (emplace acc k v) b2

mutual

/-- Blob::restore dispatched on the destination type, building the
restored value into a default-initialized destination: fundamentals and
enums load their bytes; composites restore their fields in declaration
order; fixed arrays restore index by index with no count; sequence
containers and strings restore a counter, resize, and fill; maps restore
a counter then emplace each restored pair. -/
def restoreVal : Ty → Blob → RRes Value
  | .fund w, b =>
    match restoreFund w b with
    | .err e b1 => .err e b1
    | .ok bs b1 => .ok (.fund w bs) b1
  | .comp ts, b =>
    match restoreFields ts b with
    | .err e b1 => .err e b1
    | .ok vs b1 => .ok (.comp vs) b1
  | .arr n t, b =>
    match iterRestore (fun b1 => restoreVal t b1) n b with
    | .err e b1 => .err e b1
    | .ok vs b1 => .ok (.arr vs) b1
  | .seqc t, b =>
    match restoreCntr_ b with
    | .err e b1 => .err e b1
    | .ok n b1 =>
      match iterRestore (fun b2 => restoreVal t b2) n b1 with
      | .err e b2 => .err e b2
      | .ok vs b2 => .ok (.seqc vs) b2
  | .str, b =>
    match restoreCntr_ b with
    | .err e b1 => .err e b1
    | .ok n b1 =>
      match iterRestore restoreChar n b1 with
      | .err e b2 => .err e b2
      | .ok cs b2 => .ok (.str cs) b2
  | .mapc kt vt, b =>
    match restoreCntr_ b with
    | .err e b1 => .err e b1
    | .ok n b1 =>
      match iterRestorePair (fun b2 => restoreVal kt b2) (fun b2 => restoreVal vt b2) n [] b1 with
      | .err e b2 => .err e b2
      | .ok ps b2 => .ok (.mapc ps) b2

/-- Fields of a composite restored in declaration order. -/
def restoreFields : List Ty → Blob → RRes (List Value)
  | [], b => .ok [] b
  | t :: ts, b =>
    match restoreVal t b with
    | .err e b1 => .err e b1
    | .ok v b1 =>
      match restoreFields ts b1 with
      | .err e b2 => .err e b2
      | .ok vs b2 => .ok (v :: vs) b2

end

/-- Well-formedness of a value at a type: the invariants every real C++
value of the corresponding type satisfies.  A fundamental of sizeof w has
exactly w bytes (w ≥ 1), each a byte; a composite has its fields at the
declared field types; a fixed array has exactly its static extent of
elements; container sizes are size_t values (< 2^64); string characters
are bytes; map keys are pairwise distinct as std::map guarantees. -/
inductive WF : Value → Ty → Prop where
  | fund {w : Nat} {bs : List Nat} :
      1 ≤ w → bs.length = w → (∀ x ∈ bs, x < 256) → WF (.fund w bs) (.fund w)
  | comp {vs : List Value} {ts : List Ty} :
      vs.length = ts.length → (∀ p ∈ vs.zip ts, WF p.1 p.2) → WF (.comp vs) (.comp ts)
  | arr {es : List Value} {n : Nat} {t : Ty} :
      es.length = n → (∀ v ∈ es, WF v t) → WF (.arr es) (.arr n t)
  | seqc {es : List Value} {t : Ty} :
      es.length < 2 ^ 64 → (∀ v ∈ es, WF v t) → WF (.seqc es) (.seqc t)
  | str {cs : List Nat} :
      cs.length < 2 ^ 64 → (∀ c ∈ cs, c < 256) → WF (.str cs) .str
  | mapc {ps : List (Value × Value)} {kt vt : Ty} :
      ps.length < 2 ^ 64 → (ps.map Prod.fst).Nodup →
      (∀ p ∈ ps, WF p.1 kt) → (∀ p ∈ ps, WF p.2 vt) → WF (.mapc ps) (.mapc kt vt)

theorem getD_append_length (pre : List Nat) (x : Nat) (rest : List Nat) :
    (pre ++ x :: rest).getD pre.length 0 = x := by
  induction pre with
  | nil => rfl
  | cons a pre ih => simpa using ih

theorem readBytes_append (bs : List Nat) : ∀ pre suf : List Nat,
    readBytes (pre ++ bs ++ suf) pre.length bs.length = bs := by
  induction bs with
  | nil => intro pre suf; rfl
  | cons x bs ih =>
      intro pre suf
      show (pre ++ x :: bs ++ suf).getD pre.length 0 ::
          readBytes (pre ++ x :: bs ++ suf) (pre.length + 1) bs.length = x :: bs
      have h1 : pre ++ x :: bs ++ suf = pre ++ x :: (bs ++ suf) := by simp
      have h2 : pre ++ x :: bs ++ suf = (pre ++ [x]) ++ bs ++ suf := by simp
      have h3 : pre.length + 1 = (pre ++ [x]).length := by simp
      rw [h1, getD_append_length, ← h1, h2, h3, ih (pre ++ [x]) suf]

/-- Spec of the fundamental restore on an in-bounds read: when the bytes
at the cursor are exactly the w stored bytes, they are returned verbatim
and the cursor advances by w. -/
theorem restoreFund_append (w : Nat) (hw : 1 ≤ w) (bs pre suf : List Nat)
    (hlen : bs.length = w) (b : Blob)
    (hb : b.blob_ = pre ++ bs ++ suf) (ho : b.offset_ = pre.length) :
    restoreFund w b = .ok bs { b with offset_ := pre.length + w } := by
  have hlt : b.offset_ < b.blob_.length := by
    rw [hb, ho]; simp; omega
  unfold restoreFund
  rw [if_pos hlt, hb, ho, ← hlen, readBytes_append, hlen]

theorem serCntr_length (s : Nat) :
    (serCntr s).length = 1 + 2 ^ counterSize_ s := by
  simp [serCntr, length_natToBytes, Nat.add_comm]

theorem counterSize_le_three (s : Nat) : counterSize_ s ≤ 3 := by
  unfold counterSize_; split_ifs <;> omega

/-- Decoding a well-formed counter prefix: tag byte t ≤ 3 followed by
2^t little-endian bytes of a count below the range bound reproduces the
count and advances the cursor past the prefix. -/
theorem restoreCntr_tag (t : Nat) (ht : t ≤ 3) (n : Nat) (hn : n < 256 ^ 2 ^ t)
    (b : Blob) (pre suf : List Nat)
    (hb : b.blob_ = pre ++ (t :: natToBytes (2 ^ t) n) ++ suf) (ho : b.offset_ = pre.length) :
    restoreCntr_ b = .ok n { b with offset_ := pre.length + (1 + 2 ^ t) } := by
  have hb1 : b.blob_ = pre ++ [t] ++ (natToBytes (2 ^ t) n ++ suf) := by
    rw [hb]; simp
  have h1 : restoreFund 1 b = .ok [t] { b with offset_ := pre.length + 1 } :=
    restoreFund_append 1 le_rfl [t] pre (natToBytes (2 ^ t) n ++ suf) rfl b hb1 ho
  have hb2 : b.blob_ = (pre ++ [t]) ++ natToBytes (2 ^ t) n ++ suf := by
    rw [hb]; simp
  have hpow : 1 ≤ 2 ^ t := Nat.one_le_two_pow
  have h2 : restoreFund (2 ^ t) { b with offset_ := pre.length + 1 } =
      .ok (natToBytes (2 ^ t) n) { b with offset_ := pre.length + 1 + 2 ^ t } := by
    have := restoreFund_append (2 ^ t) hpow (natToBytes (2 ^ t) n) (pre ++ [t]) suf
      (length_natToBytes _ _) { b with offset_ := pre.length + 1 } hb2 (by simp)
    simpa [Nat.add_assoc] using this
  have hval : bytesToNat (natToBytes (2 ^ t) n) = n := by
    rw [bytesToNat_natToBytes, Nat.mod_eq_of_lt hn]
  interval_cases t <;>
    · unfold restoreCntr_
      rw [h1]
      norm_num [bytesToNat] at h2 ⊢
      norm_num at hval
      rw [h2]
      simp [hval, Nat.add_assoc]

/-- Decoding a tag byte outside {0,1,2,3} throws DataCorruption, with
the cursor already advanced past the tag byte. -/
theorem restoreCntr_badTag (t : Nat) (ht : 4 ≤ t) (b : Blob) (pre suf : List Nat)
    (hb : b.blob_ = pre ++ t :: suf) (ho : b.offset_ = pre.length) :
    restoreCntr_ b = .err .DataCorruption { b with offset_ := pre.length + 1 } := by
  have hb1 : b.blob_ = pre ++ [t] ++ suf := by rw [hb]; simp
  have h1 : restoreFund 1 b = .ok [t] { b with offset_ := pre.length + 1 } :=
    restoreFund_append 1 le_rfl [t] pre suf rfl b hb1 ho
  obtain ⟨m, rfl⟩ : ∃ m, t = m + 4 := ⟨t - 4, by omega⟩
  unfold restoreCntr_
  rw [h1]
  simp [bytesToNat]

/-- The full counter round-trip: restoring right after the bytes pushed
by appendCntr_ reproduces the appended count exactly. -/
theorem restoreCntr_append (s : Nat) (hs : s < 2 ^ 64) (b : Blob) (pre suf : List Nat)
    (hb : b.blob_ = pre ++ serCntr s ++ suf) (ho : b.offset_ = pre.length) :
    restoreCntr_ b = .ok s { b with offset_ := pre.length + (serCntr s).length } := by
  have hle := counterSize_le_three s
  have hn : s < 256 ^ 2 ^ counterSize_ s := by
    unfold counterSize_ at *
    split_ifs at * <;> norm_num <;> omega
  rw [serCntr_length]
  exact restoreCntr_tag (counterSize_ s) hle s hn b pre suf (by rw [hb]; rfl) ho

instance : LawfulBEq Value where
  eq_of_beq h := (valueBeq_iff _ _).mp h
  rfl := (valueBeq_iff _ _).mpr rfl

theorem serList_eq (vs : List Value) : serList vs = (vs.map serVal).flatten := by
  induction vs with
  | nil => rfl
  | cons v vs ih => simp [serList, ih]

theorem serPairs_eq (ps : List (Value × Value)) :
    serPairs ps = (ps.map (fun p => serVal p.1 ++ serVal p.2)).flatten := by
  induction ps with
  | nil => rfl
  | cons p ps ih =>
      obtain ⟨k, v⟩ := p
      simp [serPairs, ih]

/-- Restoring n elements in sequence, given that the element restore f
consumes exactly the encoding g of each element. -/
theorem iterRestore_spec {α : Type} (f : Blob → RRes α) (g : α → List Nat) :
    ∀ es : List α,
      (∀ v ∈ es, ∀ (b : Blob) (pre suf : List Nat),
        b.blob_ = pre ++ g v ++ suf → b.offset_ = pre.length →
        f b = .ok v { b with offset_ := pre.length + (g v).length }) →
      ∀ (b : Blob) (pre suf : List Nat),
        b.blob_ = pre ++ (es.map g).flatten ++ suf → b.offset_ = pre.length →
        iterRestore f es.length b =
          .ok es { b with offset_ := pre.length + ((es.map g).flatten).length } := by
  intro es
  induction es with
  | nil =>
      intro _ b pre suf hb ho
      simp [iterRestore, ← ho]
  | cons v es ih =>
      intro H b pre suf hb ho
      have hf := H v (List.mem_cons_self v es) b pre (((es.map g).flatten) ++ suf)
        (by rw [hb]; simp) ho
      have hih := ih (fun w hw => H w (List.mem_cons_of_mem v hw))
        { b with offset_ := pre.length + (g v).length } (pre ++ g v) suf
        (by rw [hb]; simp) (by simp)
      simp only [List.length_cons, iterRestore, hf, hih]
      simp [Nat.add_assoc]

/-- Restoring n key-value pairs in sequence, emplacing each into the
accumulated container. -/
theorem iterRestorePair_spec (fk fv : Blob → RRes Value) :
    ∀ ps : List (Value × Value),
      (∀ p ∈ ps, ∀ (b : Blob) (pre suf : List Nat),
        b.blob_ = pre ++ serVal p.1 ++ suf → b.offset_ = pre.length →
        fk b = .ok p.1 { b with offset_ := pre.length + (serVal p.1).length }) →
      (∀ p ∈ ps, ∀ (b : Blob) (pre suf : List Nat),
        b.blob_ = pre ++ serVal p.2 ++ suf → b.offset_ = pre.length →
        fv b = .ok p.2 { b with offset_ := pre.length + (serVal p.2).length }) →
      ∀ (acc : List (Value × Value)) (b : Blob) (pre suf : List Nat),
        b.blob_ = pre ++ serPairs ps ++ suf → b.offset_ = pre.length →
        iterRestorePair fk fv ps.length acc b =
          .ok (ps.foldl (fun a p => emplace a p.1 p.2) acc)
            { b with offset_ := pre.length + (serPairs ps).length } := by
  intro ps
  induction ps with
  | nil =>
      intro _ _ acc b pre suf hb ho
      simp [iterRestorePair, serPairs, ← ho]
  | cons p ps ih =>
      intro Hk Hv acc b pre suf hb ho
      obtain ⟨k, v⟩ := p
      have hbk : b.blob_ = pre ++ serVal k ++ (serVal v ++ serPairs ps ++ suf) := by
        rw [hb]; simp [serPairs]
      have hk := Hk (k, v) (List.mem_cons_self _ _) b pre (serVal v ++ serPairs ps ++ suf) hbk ho
      have hbv : b.blob_ = (pre ++ serVal k) ++ serVal v ++ (serPairs ps ++ suf) := by
        rw [hb]; simp [serPairs]
      have hv := Hv (k, v) (List.mem_cons_self _ _)
        { b with offset_ := pre.length + (serVal k).length } (pre ++ serVal k)
        (serPairs ps ++ suf) hbv (by simp)
      have hih := ih (fun q hq => Hk q (List.mem_cons_of_mem _ hq))
        (fun q hq => Hv q (List.mem_cons_of_mem _ hq)) (emplace acc k v)
        { b with offset_ := pre.length + (serVal k).length + (serVal v).length }
        (pre ++ serVal k ++ serVal v) suf (by rw [hb]; simp [serPairs]) (by simp [Nat.add_assoc])
      simp only [List.length_cons, iterRestorePair, hk, hv]
      simp only [serPairs, Nat.add_assoc, List.length_append] at hih ⊢
      simp [hih]

/-- Restoring the declared fields of a composite in order. -/
theorem restoreFields_spec :
    ∀ (ts : List Ty) (vs : List Value), vs.length = ts.length →
      (∀ p ∈ vs.zip ts, ∀ (b : Blob) (pre suf : List Nat),
        b.blob_ = pre ++ serVal p.1 ++ suf → b.offset_ = pre.length →
        restoreVal p.2 b = .ok p.1 { b with offset_ := pre.length + (serVal p.1).length }) →
      ∀ (b : Blob) (pre suf : List Nat),
        b.blob_ = pre ++ serList vs ++ suf → b.offset_ = pre.length →
        restoreFields ts b = .ok vs { b with offset_ := pre.length + (serList vs).length } := by
  intro ts
  induction ts with
  | nil =>
      intro vs hlen _ b pre suf hb ho
      have hvs : vs = [] := List.length_eq_zero.mp (by simpa using hlen)
      subst hvs
      simp [restoreFields, serList, ← ho]
  | cons t ts ih =>
      intro vs hlen H b pre suf hb ho
      cases vs with
      | nil => simp at hlen
      | cons v vs =>
          have hf := H (v, t) (by simp) b pre (serList vs ++ suf) (by rw [hb]; simp [serList]) ho
          have hih := ih vs (by simpa using hlen)
            (fun p hp => H p (by simp [hp]))
            { b with offset_ := pre.length + (serVal v).length } (pre ++ serVal v) suf
            (by rw [hb]; simp [serList]) (by simp)
          simp only [restoreFields, hf, hih]
          simp [serList, Nat.add_assoc]

theorem restoreChar_spec (c : Nat) (b : Blob) (pre suf : List Nat)
    (hb : b.blob_ = pre ++ [c] ++ suf) (ho : b.offset_ = pre.length) :
    restoreChar b = .ok c { b with offset_ := pre.length + 1 } := by
  unfold restoreChar
  rw [restoreFund_append 1 le_rfl [c] pre suf rfl b hb ho]
  simp [bytesToNat]

/-- Emplacing a pair sequence with pairwise distinct keys into a map
that contains none of the keys inserts every pair: this is the restore
of a stream that a real std::map produced. -/
theorem foldl_emplace_eq :
    ∀ (ps acc : List (Value × Value)), (ps.map Prod.fst).Nodup →
      (∀ p ∈ ps, ∀ q ∈ acc, q.1 ≠ p.1) →
      ps.foldl (fun a p => emplace a p.1 p.2) acc = acc ++ ps := by
  intro ps
  induction ps with
  | nil => intro acc _ _; simp
  | cons p ps ih =>
      intro acc hnd hdisj
      obtain ⟨k, v⟩ := p
      have hany : acc.any (fun q => q.1 == k) = false := by
        rw [List.any_eq_false]
        intro q hq
        simpa using hdisj (k, v) (List.mem_cons_self _ _) q hq
      have hstep : emplace acc k v = acc ++ [(k, v)] := by
        simp [emplace, hany]
      have hnd2 : (ps.map Prod.fst).Nodup := (List.nodup_cons.mp (by simpa using hnd)).2
      have hki : k ∉ ps.map Prod.fst := (List.nodup_cons.mp (by simpa using hnd)).1
      have hdisj2 : ∀ p ∈ ps, ∀ q ∈ acc ++ [(k, v)], q.1 ≠ p.1 := by
        intro p hp q hq
        rcases List.mem_append.mp hq with hq1 | hq2
        · exact hdisj p (List.mem_cons_of_mem _ hp) q hq1
        · have : q = (k, v) := by simpa using hq2
          subst this
          intro hcontra
          exact hki (by simpa [← hcontra] using List.mem_map_of_mem Prod.fst hp)
      have := ih (acc ++ [(k, v)]) hnd2 hdisj2
      simp only [List.foldl_cons, hstep, this]
      simp

theorem flatten_map_singleton (cs : List Nat) : (cs.map fun c => [c]).flatten = cs := by
  induction cs with
  | nil => rfl
  | cons c cs ih => simp [ih]

/-- The central restore-after-append lemma: restoring a value of type t
from a buffer that carries the bytes append pushed for a well-formed v,
with the cursor at the start of those bytes, reproduces v exactly and
leaves the cursor one past them.  The pointer tables are untouched. -/
theorem restoreVal_serVal (v : Value) (t : Ty) (h : WF v t) :
    ∀ (b : Blob) (pre suf : List Nat),
      b.blob_ = pre ++ serVal v ++ suf → b.offset_ = pre.length →
      restoreVal t b = .ok v { b with offset_ := pre.length + (serVal v).length } := by
  induction h with
  | @fund w bs hw hlen hby =>
      intro b pre suf hb ho
      simp only [serVal] at hb ⊢
      simp only [restoreVal, restoreFund_append w hw bs pre suf hlen b hb ho]
      simp [hlen]
  | @comp vs ts hlen hzip ih =>
      intro b pre suf hb ho
      simp only [serVal] at hb ⊢
      simp only [restoreVal, restoreFields_spec ts vs hlen ih b pre suf hb ho]
  | @arr es n t hlen hmem ih =>
      intro b pre suf hb ho
      subst hlen
      simp only [serVal, serList_eq] at hb ⊢
      simp only [restoreVal, iterRestore_spec (fun b1 => restoreVal t b1) serVal es ih b pre suf hb ho]
  | @seqc es t hlt hmem ih =>
      intro b pre suf hb ho
      have h1 := restoreCntr_append es.length hlt b pre (serList es ++ suf)
        (by rw [hb]; simp [serVal]) ho
      have h2 := iterRestore_spec (fun b1 => restoreVal t b1) serVal es ih
        { b with offset_ := pre.length + (serCntr es.length).length }
        (pre ++ serCntr es.length) suf (by rw [hb]; simp [serVal, serList_eq]) (by simp)
      simp only [restoreVal, h1, ← serList_eq] at h2 ⊢
      simp only [h2]
      simp [serVal, Nat.add_assoc]
  | @str cs hlt hby =>
      intro b pre suf hb ho
      have h1 := restoreCntr_append cs.length hlt b pre (cs ++ suf)
        (by rw [hb]; simp [serVal]) ho
      have H : ∀ c ∈ cs, ∀ (b1 : Blob) (pre1 suf1 : List Nat),
          b1.blob_ = pre1 ++ [c] ++ suf1 → b1.offset_ = pre1.length →
          restoreChar b1 = .ok c { b1 with offset_ := pre1.length + 1 } := by
        intro c _ b1 pre1 suf1 hb1 ho1
        exact restoreChar_spec c b1 pre1 suf1 hb1 ho1
      have h2 := iterRestore_spec restoreChar (fun c => [c]) cs
        (by simpa using H)
        { b with offset_ := pre.length + (serCntr cs.length).length }
        (pre ++ serCntr cs.length) suf
        (by rw [hb]; simp [serVal, flatten_map_singleton]) (by simp)
      simp only [flatten_map_singleton] at h2
      simp only [restoreVal, h1, h2]
      simp [serVal, Nat.add_assoc]
  | @mapc ps kt vt hlt hnd hkt hvt ihk ihv =>
      intro b pre suf hb ho
      have h1 := restoreCntr_append ps.length hlt b pre (serPairs ps ++ suf)
        (by rw [hb]; simp [serVal]) ho
      have h2 := iterRestorePair_spec (fun b2 => restoreVal kt b2) (fun b2 => restoreVal vt b2)
        ps ihk ihv []
        { b with offset_ := pre.length + (serCntr ps.length).length }
        (pre ++ serCntr ps.length) suf (by rw [hb]; simp [serVal]) (by simp)
      have hfold := foldl_emplace_eq ps [] hnd (by simp)
      simp only [hfold, List.nil_append] at h2
      simp only [restoreVal, h1, h2]
      simp [serVal, Nat.add_assoc]

/-- Lookup in the address-to-uid dictionary mpu_ (std::map::find). -/
def mpuFind : List (Addr × Nat) → Addr → Option Nat
  | [], _ => none
  | (a, u) :: rest, p => if p = a then some u else mpuFind rest p

/-- Blob::mind_ on a single address: a duplicated address is a no-op,
a new address is given the next uid (the current size of vp_) in mpu_
and pushed onto vp_, so the index of an address in vp_ is its uid. -/
def mind_ (b : Blob) (ptr : Addr) : Blob :=
  if (mpuFind b.mpu_ ptr).isSome then b
  else { b with mpu_ := b.mpu_ ++ [(ptr, b.vp_.length)], vp_ := b.vp_ ++ [ptr] }

/-- The variadic Blob::mind call: processes the listed addresses left to
right (the MSERDES macros pass nullptr, modelled as address 0, first). -/
def mindList (b : Blob) (ps : List Addr) : Blob :=
  ps.foldl mind_ b

/-- Blob::append on a pointer: looks the address up in mpu_; an address
absent from the dictionary throws UnaccountedPointer before anything is
pushed, a present one appends its uid as a fundamental unsigned int
(4 bytes). -/
def appendPtr (b : Blob) (ptr : Addr) : RRes Unit :=
  match mpuFind b.mpu_ ptr with
  | none => .err .UnaccountedPointer b
  | some uid => .ok () { b with blob_ := b.blob_ ++ natToBytes 4 uid }

/-- Lookup of the slot set of a uid in mpl_ (empty when absent, as the
std::map operator[] default-constructs). -/
def mplGet : List (Nat × List Addr) → Nat → List Addr
  | [], _ => []
  | (u, s) :: rest, uid => if uid = u then s else mplGet rest uid

/-- Store a slot set under a uid in mpl_, keeping the entries sorted by
uid as std::map does. -/
def mplInsert : List (Nat × List Addr) → Nat → List Addr → List (Nat × List Addr)
  | [], uid, s => [(uid, s)]
  | (u, os) :: rest, uid, s =>
    if uid < u then (uid, s) :: (u, os) :: rest
    else if uid = u then (uid, s) :: rest
    else (u, os) :: mplInsert rest uid s

/-- Blob::restore on a pointer field at slot address slot: restores the
4-byte unsigned uid, then registers the slot in mpl_[uid]; if this very
slot is already in mpl_[uid] it throws DuplicatePointerLocation. -/
def restorePtr (slot : Addr) (b : Blob) : RRes Unit :=
  match restoreFund 4 b with
  | .err e b1 => .err e b1
  | .ok bs b1 =>
    let uid := bytesToNat bs
    let spl := mplGet b1.mpl_ uid
    if slot ∈ spl then .err .DuplicatePointerLocation b1
    else .ok () { b1 with mpl_ := mplInsert b1.mpl_ uid (spl ++ [slot]) }

/-- The pointer slots live in machine memory, modelled as a map from
slot addresses to the pointer value stored there; writing a resolved
address into every slot of a set. -/
def writeSlots (mem : Addr → Addr) (slots : List Addr) (a : Addr) : Addr → Addr :=
  slots.foldl (fun m s => Function.update m s a) mem

/-- Blob::remind - the resolution pass: an empty mpl_ is a no-op;
more distinct uids in mpl_ than minded addresses in vp_ throws
MissingPointers; otherwise every slot recorded under uid receives the
address vp_[uid] and mpl_ is cleared.  A uid at or past the length of
vp_ would read the vector out of range (undefined behavior); that read
is modelled by the default 0 and is not relied upon by any theorem. -/
def remind (b : Blob) (mem : Addr → Addr) : Blob × (Addr → Addr) × Option BlobErr :=
  if b.mpl_.isEmpty then (b, mem, none)
  else if b.vp_.length < b.mpl_.length then (b, mem, some .MissingPointers)
  else
    ({ b with mpl_ := [] },
     b.mpl_.foldl (fun m e => writeSlots m e.2 (b.vp_.getD e.1 0)) mem,
     none)

theorem mind_fields (b : Blob) (p : Addr) :
    (mind_ b p).mpl_ = b.mpl_ ∧ (mind_ b p).blob_ = b.blob_ ∧
      (mind_ b p).offset_ = b.offset_ := by
  unfold mind_
  split_ifs <;> simp

theorem mindList_cons (b : Blob) (p : Addr) (ps : List Addr) :
    mindList b (p :: ps) = mindList (mind_ b p) ps := by
  simp [mindList]

theorem mindList_fields (ps : List Addr) : ∀ b : Blob,
    (mindList b ps).mpl_ = b.mpl_ ∧ (mindList b ps).blob_ = b.blob_ ∧
      (mindList b ps).offset_ = b.offset_ := by
  induction ps with
  | nil => intro b; exact ⟨rfl, rfl, rfl⟩
  | cons p ps ih =>
      intro b
      rw [mindList_cons]
      obtain ⟨h1, h2, h3⟩ := ih (mind_ b p)
      obtain ⟨g1, g2, g3⟩ := mind_fields b p
      exact ⟨h1.trans g1, h2.trans g2, h3.trans g3⟩

theorem mpuFind_append_some (l1 l2 : List (Addr × Nat)) (a : Addr) (u : Nat)
    (h : mpuFind l1 a = some u) : mpuFind (l1 ++ l2) a = some u := by
  induction l1 with
  | nil => simp [mpuFind] at h
  | cons e l1 ih =>
      obtain ⟨x, y⟩ := e
      unfold mpuFind at h ⊢
      split_ifs at h ⊢ <;> simp_all

theorem mind_mpu_mono (b : Blob) (p a : Addr) (u : Nat) (h : mpuFind b.mpu_ a = some u) :
    mpuFind (mind_ b p).mpu_ a = some u := by
  unfold mind_
  split_ifs
  · exact h
  · exact mpuFind_append_some _ _ _ _ h

theorem mindList_mpu_mono (ps : List Addr) : ∀ (b : Blob) (a : Addr) (u : Nat),
    mpuFind b.mpu_ a = some u → mpuFind (mindList b ps).mpu_ a = some u := by
  induction ps with
  | nil => intro b a u h; exact h
  | cons p ps ih =>
      intro b a u h
      rw [mindList_cons]
      exact ih _ _ _ (mind_mpu_mono b p a u h)

theorem mind_vp_prefix (b : Blob) (p : Addr) : ∃ t, (mind_ b p).vp_ = b.vp_ ++ t := by
  unfold mind_
  split_ifs
  · exact ⟨[], by simp⟩
  · exact ⟨[p], rfl⟩

theorem mindList_vp_prefix (ps : List Addr) : ∀ b : Blob,
    ∃ t, (mindList b ps).vp_ = b.vp_ ++ t := by
  induction ps with
  | nil => intro b; exact ⟨[], by simp [mindList]⟩
  | cons p ps ih =>
      intro b
      rw [mindList_cons]
      obtain ⟨t1, h1⟩ := mind_vp_prefix b p
      obtain ⟨t2, h2⟩ := ih (mind_ b p)
      exact ⟨t1 ++ t2, by rw [h2, h1, List.append_assoc]⟩

theorem writeSlots_cons (mem : Addr → Addr) (x : Addr) (slots : List Addr) (a : Addr) :
    writeSlots mem (x :: slots) a = writeSlots (Function.update mem x a) slots a := by
  simp [writeSlots]

theorem writeSlots_not_mem (slots : List Addr) : ∀ (mem : Addr → Addr) (a s : Addr),
    s ∉ slots → writeSlots mem slots a s = mem s := by
  induction slots with
  | nil => intro mem a s _; rfl
  | cons x slots ih =>
      intro mem a s hs
      have hx : s ≠ x := fun h => hs (h ▸ List.mem_cons_self x slots)
      have hrest : s ∉ slots := fun h => hs (List.mem_cons_of_mem x h)
      rw [writeSlots_cons, ih _ _ _ hrest, Function.update_noteq hx]

theorem writeSlots_mem (slots : List Addr) : ∀ (mem : Addr → Addr) (a s : Addr),
    s ∈ slots → writeSlots mem slots a s = a := by
  induction slots with
  | nil => intro _ _ _ h; simp at h
  | cons x slots ih =>
      intro mem a s hs
      rw [writeSlots_cons]
      by_cases hrest : s ∈ slots
      · exact ih _ _ _ hrest
      · have hx : s = x := by
          rcases List.mem_cons.mp hs with h | h
          · exact h
          · exact absurd h hrest
        rw [writeSlots_not_mem slots _ _ _ hrest, hx, Function.update_same]

theorem foldl_writeSlots_keep (vp : List Addr) :
    ∀ (entries : List (Nat × List Addr)) (mem : Addr → Addr) (s a : Addr),
      mem s = a → (∀ e ∈ entries, s ∈ e.2 → vp.getD e.1 0 = a) →
      (entries.foldl (fun m e => writeSlots m e.2 (vp.getD e.1 0)) mem) s = a := by
  intro entries
  induction entries with
  | nil => intro mem s a h _; exact h
  | cons e entries ih =>
      intro mem s a h hall
      rw [List.foldl_cons]
      apply ih
      · by_cases hs : s ∈ e.2
        · rw [writeSlots_mem _ _ _ _ hs]
          exact hall e (List.mem_cons_self _ _) hs
        · rw [writeSlots_not_mem _ _ _ _ hs]
          exact h
      · intro e2 he2
        exact hall e2 (List.mem_cons_of_mem _ he2)

theorem foldl_writeSlots_set (vp : List Addr) :
    ∀ (entries : List (Nat × List Addr)) (mem : Addr → Addr) (s a : Addr)
      (e0 : Nat × List Addr), e0 ∈ entries → s ∈ e0.2 →
      (∀ e ∈ entries, s ∈ e.2 → vp.getD e.1 0 = a) →
      (entries.foldl (fun m e => writeSlots m e.2 (vp.getD e.1 0)) mem) s = a := by
  intro entries
  induction entries with
  | nil => intro _ _ _ _ h; simp at h
  | cons e entries ih =>
      intro mem s a e0 he0 hs hall
      rw [List.foldl_cons]
      by_cases hse : s ∈ e.2
      · apply foldl_writeSlots_keep
        · rw [writeSlots_mem _ _ _ _ hse]
          exact hall e (List.mem_cons_self _ _) hse
        · intro e2 he2
          exact hall e2 (List.mem_cons_of_mem _ he2)
      · have he0t : e0 ∈ entries := by
          rcases List.mem_cons.mp he0 with h | h
          · exact absurd (h ▸ hs) hse
          · exact h
        exact ih _ s a e0 he0t hs (fun e2 he2 => hall e2 (List.mem_cons_of_mem _ he2))

/-- C1: appending any well-formed value of a supported category
(fundamental scalar or enum, SERDES composite, fixed C array, linear
sequence container, string, associative map) to an empty Blob and then
restoring from offset 0 into a default-initialized destination of the
same type yields exactly the appended value, field for field. -/
theorem claim1_roundtrip (v : Value) (t : Ty) (h : WF v t) :
    restoreVal t (Blob.init.appendVal v) =
      .ok v { Blob.init.appendVal v with offset_ := (serVal v).length } := by
  have := restoreVal_serVal v t h (Blob.init.appendVal v) [] []
    (by simp [Blob.appendVal, Blob.init]) rfl
  simpa using this

/-- Witness for C1 at a concrete vector of one 1-byte fundamental. -/
theorem claim1_roundtrip_witness :
    WF (Value.seqc [Value.fund 1 [7]]) (Ty.seqc (Ty.fund 1)) ∧
    restoreVal (Ty.seqc (Ty.fund 1)) (Blob.init.appendVal (Value.seqc [Value.fund 1 [7]])) =
      .ok (Value.seqc [Value.fund 1 [7]])
        { Blob.init.appendVal (Value.seqc [Value.fund 1 [7]]) with
          offset_ := (serVal (Value.seqc [Value.fund 1 [7]])).length } := by
  have hwf : WF (Value.seqc [Value.fund 1 [7]]) (Ty.seqc (Ty.fund 1)) := by
    apply WF.seqc
    · norm_num
    · intro v hv
      simp only [List.mem_singleton] at hv
      subst hv
      refine WF.fund le_rfl rfl ?_
      intro x hx
      simp only [List.mem_singleton] at hx
      omega
  exact ⟨hwf, claim1_roundtrip _ _ hwf⟩

/-- C2, evaluation at the failing input: on a 1-byte buffer, restoring a
2-byte fundamental at offset 0 SUCCEEDS - at() bounds-checks only the
first byte, the second is read past the end of the vector (undefined
behavior, modelled as 0) - even though cursor + 2 > len, where the claim
demands an OutOfData failure.  restore_raw of 2 bytes on the same buffer
does fail with OutOfData, as the claim states. -/
theorem claim2_fund_read_past_end :
    restoreFund 2 { Blob.init with blob_ := [7] } =
      .ok [7, 0] { Blob.init with blob_ := [7], offset_ := 2 } ∧
    restore_raw 2 { Blob.init with blob_ := [7] } =
      .err .OutOfData { Blob.init with blob_ := [7], offset_ := 1 } := by
  constructor <;> rfl

/-- C3: the length-prefix tag is the smallest class in {0,1,2,3} whose
1/2/4/8-byte width holds the size; the emitted prefix is the tag byte
followed by 2^tag bytes of the count; decoding the prefix reproduces the
size exactly; and decoding a tag byte outside {0,1,2,3} fails with
DataCorruption. -/
theorem claim3_counter_spec (s : Nat) (hs : s < 2 ^ 64) :
    (counterSize_ s = 0 ↔ s < 2 ^ 8) ∧
    (counterSize_ s = 1 ↔ 2 ^ 8 ≤ s ∧ s < 2 ^ 16) ∧
    (counterSize_ s = 2 ↔ 2 ^ 16 ≤ s ∧ s < 2 ^ 32) ∧
    (counterSize_ s = 3 ↔ 2 ^ 32 ≤ s) ∧
    appendCntr_ s = .ok (counterSize_ s :: natToBytes (2 ^ counterSize_ s) s) ∧
    (∀ (b : Blob) (pre suf : List Nat),
      b.blob_ = pre ++ serCntr s ++ suf → b.offset_ = pre.length →
      restoreCntr_ b = .ok s { b with offset_ := pre.length + (serCntr s).length }) ∧
    (∀ tg, 4 ≤ tg → ∀ (b : Blob) (pre suf : List Nat),
      b.blob_ = pre ++ tg :: suf → b.offset_ = pre.length →
      restoreCntr_ b = .err .DataCorruption { b with offset_ := pre.length + 1 }) := by
  refine ⟨?_, ?_, ?_, ?_, appendCntr_eq_serCntr s,
    fun b pre suf hb ho => restoreCntr_append s hs b pre suf hb ho,
    fun tg htg b pre suf hb ho => restoreCntr_badTag tg htg b pre suf hb ho⟩
  all_goals unfold counterSize_
  all_goals split_ifs <;> norm_num <;> omega

/-- Witness for C3 at the boundary size 256, which selects class 1. -/
theorem claim3_counter_spec_witness :
    (256 : Nat) < 2 ^ 64 ∧ counterSize_ 256 = 1 ∧
    restoreCntr_ { Blob.init with blob_ := serCntr 256 } =
      .ok 256 { Blob.init with blob_ := serCntr 256, offset_ := (serCntr 256).length } := by
  have h := claim3_counter_spec 256 (by norm_num)
  refine ⟨by norm_num, h.2.1.mpr (by norm_num), ?_⟩
  have := h.2.2.2.2.2.1 { Blob.init with blob_ := serCntr 256 } [] [] (by simp) rfl
  simpa using this

/-- The Blob state right after a pointer slot restored uid 0 from a
4-byte null-id field: cursor past the field, slot recorded under uid 0. -/
def nullSlotBlob (slot : Addr) : Blob :=
  { Blob.init with
    blob_ := natToBytes 4 0
    offset_ := 4
    mpl_ := [(0, [slot])] }

/-- C4: with the conventional nullptr passed first to mind, the null
address receives uid 0 no matter what other anchors follow; appending a
null pointer therefore appends uid 0; and on the restore side a decoded
uid 0 slot receives the null address again after mind and remind. -/
theorem claim4_null_pointer_uid0 (ps qs : List Addr) (slot : Addr) (mem : Addr → Addr) :
    mpuFind (mindList Blob.init (0 :: ps)).mpu_ 0 = some 0 ∧
    appendPtr (mindList Blob.init (0 :: ps)) 0 =
      .ok () { mindList Blob.init (0 :: ps) with
               blob_ := (mindList Blob.init (0 :: ps)).blob_ ++ natToBytes 4 0 } ∧
    restorePtr slot { Blob.init with blob_ := natToBytes 4 0 } =
      .ok () (nullSlotBlob slot) ∧
    (remind (mindList (nullSlotBlob slot) (0 :: qs)) mem).2.2 = none ∧
    (remind (mindList (nullSlotBlob slot) (0 :: qs)) mem).2.1 slot = 0 := by
  have h0 : mpuFind (mindList Blob.init (0 :: ps)).mpu_ 0 = some 0 := by
    rw [mindList_cons]
    exact mindList_mpu_mono ps (mind_ Blob.init 0) 0 0 rfl
  have happ : appendPtr (mindList Blob.init (0 :: ps)) 0 =
      .ok () { mindList Blob.init (0 :: ps) with
               blob_ := (mindList Blob.init (0 :: ps)).blob_ ++ natToBytes 4 0 } := by
    unfold appendPtr
    rw [h0]
  have hres : restorePtr slot { Blob.init with blob_ := natToBytes 4 0 } =
      .ok () (nullSlotBlob slot) := rfl
  set r1 : Blob := nullSlotBlob slot with hr1
  have hmpl : (mindList r1 (0 :: qs)).mpl_ = [(0, [slot])] := (mindList_fields _ _).1
  have hvp : ∃ t, (mindList r1 (0 :: qs)).vp_ = 0 :: t := by
    rw [mindList_cons]
    obtain ⟨t, ht⟩ := mindList_vp_prefix qs (mind_ r1 0)
    exact ⟨t, by rw [ht]; rfl⟩
  obtain ⟨t, hvp⟩ := hvp
  have hrem : remind (mindList r1 (0 :: qs)) mem =
      ({ mindList r1 (0 :: qs) with mpl_ := [] },
       writeSlots mem [slot] ((mindList r1 (0 :: qs)).vp_.getD 0 0), none) := by
    unfold remind
    rw [hmpl]
    simp [hvp]
  refine ⟨h0, happ, hres, ?_, ?_⟩
  · rw [hrem]
  · rw [hrem]
    show writeSlots mem [slot] ((mindList r1 (0 :: qs)).vp_.getD 0 0) slot = 0
    rw [writeSlots_mem [slot] mem _ slot (List.mem_singleton.mpr rfl), hvp]
    rfl

/-- C5: appending a pointer whose address is not a key of the address
dictionary fails with UnaccountedPointer and returns the Blob exactly as
it was (nothing is pushed); appending a pointer whose address is in the
dictionary appends exactly its uid, encoded as a 4-byte fundamental. -/
theorem claim5_append_pointer (b : Blob) (p : Addr) :
    (mpuFind b.mpu_ p = none → appendPtr b p = .err .UnaccountedPointer b) ∧
    (∀ uid, mpuFind b.mpu_ p = some uid →
      appendPtr b p = .ok () { b with blob_ := b.blob_ ++ natToBytes 4 uid }) := by
  constructor
  · intro h
    unfold appendPtr
    rw [h]
  · intro uid h
    unfold appendPtr
    rw [h]

/-- Witness for C5: an unminded address fails and changes nothing, that
same address after mind appends its uid. -/
theorem claim5_append_pointer_witness :
    mpuFind Blob.init.mpu_ 3 = none ∧
    appendPtr Blob.init 3 = .err .UnaccountedPointer Blob.init ∧
    mpuFind (mind_ Blob.init 3).mpu_ 3 = some 0 ∧
    appendPtr (mind_ Blob.init 3) 3 =
      .ok () { mind_ Blob.init 3 with blob_ := (mind_ Blob.init 3).blob_ ++ natToBytes 4 0 } :=
  ⟨rfl, (claim5_append_pointer Blob.init 3).1 rfl, rfl,
    (claim5_append_pointer (mind_ Blob.init 3) 3).2 0 rfl⟩

/-- C6 counterexample: the very same slot (address 5) is registered
twice in one restore pass - the stream decodes uid 0 first and uid 1
second - and BOTH registrations succeed: no DuplicatePointerLocation is
thrown when the second registration decodes a different id, so the
failure is not "for every id the slot may be registered under". -/
theorem claim6_counterexample :
    restorePtr 5 { Blob.init with blob_ := [0, 0, 0, 0, 1, 0, 0, 0] } =
      .ok () { Blob.init with
               blob_ := [0, 0, 0, 0, 1, 0, 0, 0]
               offset_ := 4
               mpl_ := [(0, [5])] } ∧
    restorePtr 5 { Blob.init with
                   blob_ := [0, 0, 0, 0, 1, 0, 0, 0]
                   offset_ := 4
                   mpl_ := [(0, [5])] } =
      .ok () { Blob.init with
               blob_ := [0, 0, 0, 0, 1, 0, 0, 0]
               offset_ := 8
               mpl_ := [(0, [5]), (1, [5])] } := by
  constructor <;> rfl

/-- C6 amended: a pointer restore that decodes uid u fails with
DuplicatePointerLocation precisely when the restored slot is already
recorded under that same uid u; the same slot under a different uid, or
a distinct slot under the same uid, is accepted and recorded. -/
theorem claim6_amended (b : Blob) (slot : Addr) (u : Nat) (hu : u < 2 ^ 32)
    (pre suf : List Nat) (hb : b.blob_ = pre ++ natToBytes 4 u ++ suf)
    (ho : b.offset_ = pre.length) :
    (slot ∈ mplGet b.mpl_ u →
      restorePtr slot b = .err .DuplicatePointerLocation { b with offset_ := pre.length + 4 }) ∧
    (slot ∉ mplGet b.mpl_ u →
      restorePtr slot b = .ok () { b with
        offset_ := pre.length + 4
        mpl_ := mplInsert b.mpl_ u (mplGet b.mpl_ u ++ [slot]) }) := by
  have h4 := restoreFund_append 4 (by norm_num) (natToBytes 4 u) pre suf
    (length_natToBytes 4 u) b hb ho
  have hu4 : bytesToNat (natToBytes 4 u) = u := by
    rw [bytesToNat_natToBytes, Nat.mod_eq_of_lt (by norm_num; omega)]
  constructor
  · intro hmem
    simp only [restorePtr, h4, hu4]
    rw [if_pos hmem]
  · intro hmem
    simp only [restorePtr, h4, hu4]
    rw [if_neg hmem]

/-- Witness for C6 amended: duplicate slot under the same uid throws,
a fresh slot under the same uid is accepted. -/
theorem claim6_amended_witness :
    restorePtr 5 { Blob.init with blob_ := [0, 0, 0, 0], mpl_ := [(0, [5])] } =
      .err .DuplicatePointerLocation
        { Blob.init with
          blob_ := [0, 0, 0, 0]
          offset_ := 4
          mpl_ := [(0, [5])] } ∧
    restorePtr 7 { Blob.init with blob_ := [0, 0, 0, 0], mpl_ := [(0, [5])] } =
      .ok () { Blob.init with
               blob_ := [0, 0, 0, 0]
               offset_ := 4
               mpl_ := [(0, [5, 7])] } := by
  constructor
  · have h := (claim6_amended { Blob.init with blob_ := [0, 0, 0, 0], mpl_ := [(0, [5])] }
      5 0 (by norm_num) [] [] rfl rfl).1 (by simp [mplGet])
    simpa using h
  · have h := (claim6_amended { Blob.init with blob_ := [0, 0, 0, 0], mpl_ := [(0, [5])] }
      7 0 (by norm_num) [] [] rfl rfl).2 (by simp [mplGet])
    simpa [mplGet, mplInsert] using h

/-- C7: remind fails with MissingPointers exactly when the pending
pointer table holds more distinct uids than the dictionary holds
addresses; otherwise, for every recorded (uid, slot set) entry whose
slot is registered in that entry alone and whose uid was assigned an
address, that address is written into the slot. -/
theorem claim7_remind_spec (b : Blob) (mem : Addr → Addr) :
    ((remind b mem).2.2 = some .MissingPointers ↔ b.vp_.length < b.mpl_.length) ∧
    (b.mpl_.length ≤ b.vp_.length →
      ∀ e ∈ b.mpl_, ∀ s ∈ e.2, (∀ e2 ∈ b.mpl_, s ∈ e2.2 → e2 = e) →
      ∀ h : e.1 < b.vp_.length, (remind b mem).2.1 s = b.vp_.get ⟨e.1, h⟩) := by
  unfold remind
  by_cases hemp : b.mpl_.isEmpty
  · have hnil : b.mpl_ = [] := by simpa [List.isEmpty_iff] using hemp
    rw [if_pos hemp]
    constructor
    · simp [hnil]
    · intro _ e he
      rw [hnil] at he
      simp at he
  · rw [if_neg hemp]
    by_cases hlen : b.vp_.length < b.mpl_.length
    · rw [if_pos hlen]
      constructor
      · simpa using hlen
      · intro hle
        omega
    · rw [if_neg hlen]
      constructor
      · simpa using hlen
      · intro hle e he s hs huniq h
        show (b.mpl_.foldl (fun m e => writeSlots m e.2 (b.vp_.getD e.1 0)) mem) s = _
        have hw := foldl_writeSlots_set b.vp_ b.mpl_ mem s (b.vp_.getD e.1 0) e he hs
          (fun e2 he2 hs2 => by rw [huniq e2 he2 hs2])
        rw [hw, List.getD_eq_getElem b.vp_ 0 h]
        simp

/-- Witness for C7: one entry (uid 0, slot 5), one minded address 7;
remind writes 7 into slot 5 and reports no error. -/
theorem claim7_remind_spec_witness :
    (remind { Blob.init with vp_ := [7], mpl_ := [(0, [5])] } (fun _ => 0)).2.1 5 = 7 ∧
    ¬(remind { Blob.init with vp_ := [7], mpl_ := [(0, [5])] } (fun _ => 0)).2.2 =
      some .MissingPointers := by
  have h := claim7_remind_spec { Blob.init with vp_ := [7], mpl_ := [(0, [5])] } (fun _ => 0)
  constructor
  · have := h.2 (by norm_num) (0, [5]) (by simp) 5 (by simp)
      (fun e2 he2 _ => by simpa using he2) (by norm_num)
    simpa using this
  · rw [h.1]
    norm_num

/-- C8 counterexample: a stream encoding two pairs with the same 1-byte
key (5,10) then (5,20) restores to a map holding 10 for key 5 - the
FIRST insertion wins, because emplace refuses an existing key - not the
later-encoded 20 the claim demands. -/
theorem claim8_counterexample :
    restoreVal (.mapc (.fund 1) (.fund 1)) { Blob.init with blob_ := [0, 2, 5, 10, 5, 20] } =
      .ok (.mapc [(.fund 1 [5], .fund 1 [10])])
        { Blob.init with blob_ := [0, 2, 5, 10, 5, 20], offset_ := 6 } ∧
    Value.mapc [(.fund 1 [5], .fund 1 [10])] ≠ Value.mapc [(.fund 1 [5], .fund 1 [20])] := by
  constructor
  · rfl
  · decide

/-- C8 amended: when the byte stream presented to an associative
container restore encodes two pairs with the same key, the first
insertion for that key wins: emplace never overwrites, so the restored
container holds the value of the earlier-encoded pair. -/
theorem claim8_amended (kt vt : Ty) (k v1 v2 : Value)
    (hk : WF k kt) (h1 : WF v1 vt) (h2 : WF v2 vt) (b : Blob)
    (hb : b.blob_ = serCntr 2 ++ (serVal k ++ serVal v1 ++ (serVal k ++ serVal v2)))
    (ho : b.offset_ = 0) :
    restoreVal (.mapc kt vt) b =
      .ok (.mapc [(k, v1)])
        { b with offset_ := (serCntr 2).length + (serPairs [(k, v1), (k, v2)]).length } := by
  have hcnt := restoreCntr_append 2 (by norm_num) b [] (serPairs [(k, v1), (k, v2)])
    (by rw [hb]; simp [serPairs]) ho
  have Hk : ∀ p ∈ [(k, v1), (k, v2)], ∀ (b1 : Blob) (pre suf : List Nat),
      b1.blob_ = pre ++ serVal p.1 ++ suf → b1.offset_ = pre.length →
      restoreVal kt b1 = .ok p.1 { b1 with offset_ := pre.length + (serVal p.1).length } := by
    intro p hp
    rcases List.mem_pair.mp hp with h | h <;> subst h <;>
      exact restoreVal_serVal k kt hk
  have Hv : ∀ p ∈ [(k, v1), (k, v2)], ∀ (b1 : Blob) (pre suf : List Nat),
      b1.blob_ = pre ++ serVal p.2 ++ suf → b1.offset_ = pre.length →
      restoreVal vt b1 = .ok p.2 { b1 with offset_ := pre.length + (serVal p.2).length } := by
    intro p hp
    rcases List.mem_pair.mp hp with h | h <;> subst h
    · exact restoreVal_serVal v1 vt h1
    · exact restoreVal_serVal v2 vt h2
  have hpair := iterRestorePair_spec (fun b2 => restoreVal kt b2) (fun b2 => restoreVal vt b2)
    [(k, v1), (k, v2)] Hk Hv []
    { b with offset_ := 0 + (serCntr 2).length } (serCntr 2) []
    (by rw [hb]; simp [serPairs]) (by simp [ho])
  have hfold : List.foldl (fun a p => emplace a p.1 p.2) ([] : List (Value × Value))
      [(k, v1), (k, v2)] = [(k, v1)] := by
    simp [emplace]
  rw [hfold] at hpair
  simp only [restoreVal, hcnt, serCntr_length] at hpair ⊢
  norm_num at hpair ⊢
  simp [hpair]

/-- Witness for C8 amended at concrete 1-byte keys and values. -/
theorem claim8_amended_witness :
    restoreVal (.mapc (.fund 1) (.fund 1)) { Blob.init with blob_ := [0, 2, 5, 11, 5, 21] } =
      .ok (.mapc [(.fund 1 [5], .fund 1 [11])])
        { Blob.init with blob_ := [0, 2, 5, 11, 5, 21], offset_ := 6 } := by
  have hwf1 : WF (Value.fund 1 [5]) (Ty.fund 1) :=
    WF.fund le_rfl rfl (by intro x hx; simp at hx; omega)
  have hwf2 : WF (Value.fund 1 [11]) (Ty.fund 1) :=
    WF.fund le_rfl rfl (by intro x hx; simp at hx; omega)
  have hwf3 : WF (Value.fund 1 [21]) (Ty.fund 1) :=
    WF.fund le_rfl rfl (by intro x hx; simp at hx; omega)
  have h := claim8_amended (.fund 1) (.fund 1) (.fund 1 [5]) (.fund 1 [11]) (.fund 1 [21])
    hwf1 hwf2 hwf3 { Blob.init with blob_ := [0, 2, 5, 11, 5, 21] } rfl rfl
  simpa [serCntr, serPairs, serVal, counterSize_] using h

/-- C9: reset zeroes the cursor and empties all three pointer tables
while leaving the byte sequence - and hence size - unchanged; clear
additionally empties the byte sequence, after which empty is true. -/
theorem claim9_reset_clear (b : Blob) :
    b.reset.blob_ = b.blob_ ∧ b.reset.size = b.size ∧ b.reset.offset_ = 0 ∧
    b.reset.mpu_ = [] ∧ b.reset.vp_ = [] ∧ b.reset.mpl_ = [] ∧
    b.clear.blob_ = [] ∧ b.clear.offset_ = 0 ∧ b.clear.mpu_ = [] ∧
    b.clear.vp_ = [] ∧ b.clear.mpl_ = [] ∧ b.clear.empty = true :=
  ⟨rfl, rfl, rfl, rfl, rfl, rfl, rfl, rfl, rfl, rfl, rfl, rfl⟩

/-- C10: the counter-width classifier lands in {0,1,2,3} for every size,
so the DataCorruption default branch of the counter append switch is
unreachable: appending a length prefix always succeeds. -/
theorem claim10_append_counter_total (s : Nat) :
    (counterSize_ s = 0 ∨ counterSize_ s = 1 ∨ counterSize_ s = 2 ∨ counterSize_ s = 3) ∧
    appendCntr_ s = .ok (serCntr s) := by
  refine ⟨?_, appendCntr_eq_serCntr s⟩
  unfold counterSize_
  split_ifs <;> simp

end JslBlob
